import Mathlib

set_option linter.unusedVariables false
set_option linter.unusedSectionVars false

/-
Verification of the dense square-matrix multiplication kernel (Rust crate
mult_mat, file src/lib.rs) against its natural-language specification.

The element type f64 is modelled by an abstract type with addition,
multiplication, zero and one.  All four multiplication strategies perform
exactly the same sequence of multiply-accumulate operations on each output
cell, so every theorem proved for an arbitrary such structure (no
associativity or commutativity is ever assumed) transfers to the concrete
IEEE-754 operations, which are deterministic binary functions.

Rust panics (failed asserts and slice bounds checks) are modelled by the
Except monad with an explicit error taxonomy following section 7 of the
specification; the panic raised by slice chunking on a zero chunk size has
no name in that taxonomy and gets its own constructor.
-/

namespace MatMul

/-- Error conditions from section 7 of the specification, plus the unnamed
panic raised by slice chunks on chunk size zero. -/
inductive MatErr where
  | DimensionMismatch
  | UnalignedSize
  | IndexOutOfRange
  | ChunkSizeZero
deriving DecidableEq

/-- The matrix store: dimension n and a flat row-major buffer, as in
struct Matrix in src/lib.rs. -/
structure Matrix (α : Type) where
  n : Nat
  values : List α
deriving DecidableEq

instance {ε σ : Type} [DecidableEq ε] [DecidableEq σ] : DecidableEq (Except ε σ) := fun a b =>
  match a, b with
  | .ok x, .ok y => if h : x = y then .isTrue (by simp [h]) else .isFalse (by simp [h])
  | .error x, .error y => if h : x = y then .isTrue (by simp [h]) else .isFalse (by simp [h])
  | .ok _, .error _ => .isFalse (by simp)
  | .error _, .ok _ => .isFalse (by simp)

/-- The tile size constant Matrix::BLOCK = 64. -/
def BLOCK : Nat := 64

/-- A Rust for-loop that mutates an accumulator and can panic: left fold in
the Except monad, stopping at the first error. -/
def foldME {σ β : Type} (f : σ → β → Except MatErr σ) : σ → List β → Except MatErr σ
  | s, [] => .ok s
  | s, x :: xs =>
    match f s x with
    | .ok s2 => foldME f s2 xs
    | .error e => .error e

/-- A Rust for-loop that rewrites each element of a slice in place and can
panic: element-wise traversal, stopping at the first error. -/
def mapME {β γ : Type} (f : β → Except MatErr γ) : List β → Except MatErr (List γ)
  | [] => .ok []
  | x :: xs =>
    match f x with
    | .error e => .error e
    | .ok y =>
      match mapME f xs with
      | .error e => .error e
      | .ok ys => .ok (y :: ys)

variable {α : Type}

/-- Bounds-checked slice read, as performed by Rust indexing into a Vec or
slice: panics (IndexOutOfRange) when the offset is past the end. -/
def sliceIndex (l : List α) (i : Nat) : Except MatErr α :=
  match l[i]? with
  | some v => .ok v
  | none => .error .IndexOutOfRange

/-- impl Index for Matrix: reads self.values at flat offset
self.n * index.0 + index.1, with only the buffer bounds check. -/
def Matrix.index (m : Matrix α) (ij : Nat × Nat) : Except MatErr α :=
  sliceIndex m.values (m.n * ij.1 + ij.2)

/-- impl IndexMut for Matrix used as an assignment target: writes the buffer
at flat offset self.n * index.0 + index.1 after the same bounds check. -/
def Matrix.set (m : Matrix α) (ij : Nat × Nat) (v : α) : Except MatErr (Matrix α) :=
  if m.n * ij.1 + ij.2 < m.values.length then
    .ok ⟨m.n, m.values.set (m.n * ij.1 + ij.2) v⟩
  else .error .IndexOutOfRange

/-- Matrix::new: asserts n * n == values.len() (DimensionMismatch). -/
def Matrix.new (n : Nat) (values : List α) : Except MatErr (Matrix α) :=
  if n * n = values.length then .ok ⟨n, values⟩ else .error .DimensionMismatch

/-- Matrix::zero: dimension n, buffer filled with n * n default elements.
The internal Matrix::new call always succeeds since the replicated buffer
has length n * n by construction, so it is elided. -/
def Matrix.zero [Zero α] (n : Nat) : Matrix α :=
  ⟨n, List.replicate (n * n) 0⟩

/-- Matrix::id: starts from Matrix::zero and writes 1 at (i, i) for each
i in 0..n through the IndexMut access. -/
def Matrix.id [Zero α] [One α] (n : Nat) : Except MatErr (Matrix α) :=
  foldME (fun m i => m.set (i, i) 1) (Matrix.zero n) (List.range n)

/-- Matrix::number_of_blocks: asserts self.n % BLOCK == 0 (UnalignedSize)
then returns self.n / BLOCK. -/
def Matrix.number_of_blocks (m : Matrix α) : Except MatErr Nat :=
  if m.n % BLOCK = 0 then .ok (m.n / BLOCK) else .error .UnalignedSize

/-- Rust slice chunking without the panic case: splits a list into chunks of
k elements, the last chunk possibly shorter.  Only called with k greater
than zero. -/
def chunkList (k : Nat) (l : List α) : List (List α) :=
  if h : l.isEmpty ∨ k = 0 then []
  else l.take k :: chunkList k (l.drop k)
termination_by l.length
decreasing_by
  simp only [not_or, List.isEmpty_iff] at h
  have h1 : l.length ≠ 0 := by
    intro h0
    exact h.1 (List.eq_nil_of_length_eq_zero h0)
  have h2 : (l.drop k).length = l.length - k := List.length_drop k l
  omega

/-- Rust slice::chunks and slice::chunks_mut (and rayon par_chunks_mut):
panic when the chunk size is zero, otherwise chunk the slice. -/
def chunksE (l : List α) (k : Nat) : Except MatErr (List (List α)) :=
  if k = 0 then .error .ChunkSizeZero else .ok (chunkList k l)

/-- The shared loop body of multiply and multiply_blocked:
c[(i, j)] += a[(i, k)] * b[(k, j)].  Rust evaluates the right-hand side
(two Index reads) first, then the IndexMut place. -/
def macBody [Add α] [Mul α] (a b c : Matrix α) (i j k : Nat) : Except MatErr (Matrix α) :=
  match a.index (i, k) with
  | .error e => .error e
  | .ok x =>
    match b.index (k, j) with
    | .error e => .error e
    | .ok y =>
      match c.index (i, j) with
      | .error e => .error e
      | .ok cv => c.set (i, j) (cv + x * y)

/-- A triple loop nest running macBody over given index lists; multiply runs
it over full ranges and multiply_blocked over single tiles. -/
def tripleMAC [Add α] [Mul α] (a b : Matrix α) (is js ks : List Nat) (c : Matrix α) :
    Except MatErr (Matrix α) :=
  foldME (fun c i =>
    foldME (fun c j =>
      foldME (fun c k => macBody a b c i j k) c ks) c js) c is

/-- pub fn multiply: asserts equal dimensions, then the naive triple loop
for i, j, k in 0..size accumulating into a zero matrix. -/
def multiply [Zero α] [Add α] [Mul α] (m1 m2 : Matrix α) : Except MatErr (Matrix α) :=
  if m1.n = m2.n then
    tripleMAC m1 m2 (List.range m1.n) (List.range m1.n) (List.range m1.n)
      (Matrix.zero m1.n)
  else .error .DimensionMismatch

/-- pub fn multiply_blocked: asserts equal dimensions, computes
nn = a.number_of_blocks(), then runs the six-deep nest with outer block
indices ii, jj, kk in 0..nn and inner indices ranging over each tile
ii*s..(ii+1)*s and so on, with s = BLOCK. -/
def multiply_blocked [Zero α] [Add α] [Mul α] (a b : Matrix α) : Except MatErr (Matrix α) :=
  if a.n = b.n then
    match a.number_of_blocks with
    | .error e => .error e
    | .ok nn =>
      foldME (fun c ii =>
        foldME (fun c jj =>
          foldME (fun c kk =>
            tripleMAC a b (List.range' (ii * BLOCK) BLOCK)
              (List.range' (jj * BLOCK) BLOCK) (List.range' (kk * BLOCK) BLOCK) c)
            c (List.range nn)) c (List.range nn))
        (Matrix.zero a.n) (List.range nn)
  else .error .DimensionMismatch

/-- The innermost statement of multiply_iter and multiply_rayon:
*c += av[j] * b.values[j * n + i], reading av[j] first, then the b buffer,
both bounds-checked. -/
def iterMAC [Add α] [Mul α] (b : Matrix α) (n : Nat) (av : List α) (i : Nat)
    (cval : α) (j : Nat) : Except MatErr α :=
  match sliceIndex av j with
  | .error e => .error e
  | .ok x =>
    match sliceIndex b.values (j * n + i) with
    | .error e => .error e
    | .ok y => .ok (cval + x * y)

/-- The per-row closure of multiply_iter and multiply_rayon: given the a-row
av and the c-row cv, for jj in 0..nn rewrite each enumerated element (i, c)
of cv by folding iterMAC over the tile jj*s..(jj+1)*s. -/
def iterRow [Add α] [Mul α] (b : Matrix α) (n nn : Nat) (av cv : List α) :
    Except MatErr (List α) :=
  foldME (fun cv jj =>
    mapME (fun q => foldME (iterMAC b n av q.1) q.2 (List.range' (jj * BLOCK) BLOCK))
      cv.enum) cv (List.range nn)

/-- pub fn multiply_iter: asserts equal dimensions, computes
nn = a.number_of_blocks(), allocates the zero result, chunks the result
buffer and the a buffer into rows (chunk size n, panicking when n = 0),
zips them and runs iterRow on each pair; the mutated row chunks are
reassembled into the result buffer. -/
def multiply_iter [Zero α] [Add α] [Mul α] (a b : Matrix α) : Except MatErr (Matrix α) :=
  if a.n = b.n then
    match a.number_of_blocks with
    | .error e => .error e
    | .ok nn =>
      match chunksE (Matrix.zero a.n : Matrix α).values a.n with
      | .error e => .error e
      | .ok cc =>
        match chunksE a.values a.n with
        | .error e => .error e
        | .ok aa =>
          match mapME (fun p => iterRow b a.n nn p.2 p.1) (cc.zip aa) with
          | .error e => .error e
          | .ok rows => .ok ⟨a.n, rows.flatten⟩
  else .error .DimensionMismatch

/-- pub fn multiply_rayon: textually the same computation as multiply_iter
with the row chunks handed to rayon; the rows are disjoint and the inputs
are only read, so the fork-join execution computes each row exactly as the
sequential for_each does, and the model is the same function. -/
def multiply_rayon [Zero α] [Add α] [Mul α] (a b : Matrix α) : Except MatErr (Matrix α) :=
  if a.n = b.n then
    match a.number_of_blocks with
    | .error e => .error e
    | .ok nn =>
      match chunksE (Matrix.zero a.n : Matrix α).values a.n with
      | .error e => .error e
      | .ok cc =>
        match chunksE a.values a.n with
        | .error e => .error e
        | .ok aa =>
          match mapME (fun p => iterRow b a.n nn p.2 p.1) (cc.zip aa) with
          | .error e => .error e
          | .ok rows => .ok ⟨a.n, rows.flatten⟩
  else .error .DimensionMismatch

/-- Well-formedness invariant enforced by Matrix::new: the buffer holds
exactly n * n elements.  Every Matrix value reachable through the public
Rust constructors satisfies it. -/
def Matrix.Wf (m : Matrix α) : Prop := m.values.length = m.n * m.n

instance (m : Matrix α) : Decidable m.Wf := by
  unfold Matrix.Wf
  infer_instance

/-- Total element read used only in specifications: the buffer value at flat
offset n * i + j, defaulting to zero out of range. -/
def Matrix.entry [Zero α] (m : Matrix α) (i j : Nat) : α :=
  m.values.getD (m.n * i + j) 0

/-- The canonical ascending-k accumulation: left fold of
acc + a[i][k] * b[k][j] over the summation indices ks, from init. -/
def dotk [Zero α] [Add α] [Mul α] (a b : Matrix α) (i j : Nat) (ks : List Nat)
    (init : α) : α :=
  ks.foldl (fun acc k => acc + a.entry i k * b.entry k j) init

/-- The functional specification of the product: cell (i, j) holds the
canonical ascending-k fold over 0..n starting from zero. -/
def mulSpec [Zero α] [Add α] [Mul α] (a b : Matrix α) : Matrix α :=
  ⟨a.n, (List.range (a.n * a.n)).map
    (fun off => dotk a b (off / a.n) (off % a.n) (List.range a.n) 0)⟩

/-- Pure in-place cell write, the success value of Matrix.set. -/
def setCell (c : Matrix α) (i j : Nat) (v : α) : Matrix α :=
  ⟨c.n, c.values.set (c.n * i + j) v⟩

section BasicLemmas

variable {α : Type}

theorem off_lt {n i j : Nat} (hi : i < n) (hj : j < n) : n * i + j < n * n := by
  have h2 : n * (i + 1) ≤ n * n := Nat.mul_le_mul_left n (by omega)
  have h3 : n * (i + 1) = n * i + n := by ring
  omega

theorem off_inj {n i j i2 j2 : Nat} (hi : i < n) (hj : j < n) (hi2 : i2 < n) (hj2 : j2 < n)
    (h : n * i + j = n * i2 + j2) : i = i2 ∧ j = j2 := by
  have hn : 0 < n := by omega
  have d1 : (n * i + j) / n = i := by
    rw [Nat.mul_add_div hn, Nat.div_eq_of_lt hj]
    omega
  have d2 : (n * i2 + j2) / n = i2 := by
    rw [Nat.mul_add_div hn, Nat.div_eq_of_lt hj2]
    omega
  have m1 : (n * i + j) % n = j := by
    rw [Nat.mul_add_mod, Nat.mod_eq_of_lt hj]
  have m2 : (n * i2 + j2) % n = j2 := by
    rw [Nat.mul_add_mod, Nat.mod_eq_of_lt hj2]
  constructor
  · rw [← d1, ← d2, h]
  · rw [← m1, ← m2, h]

theorem sliceIndex_ok {l : List α} {i : Nat} {v : α} (h : l[i]? = some v) :
    sliceIndex l i = .ok v := by
  simp [sliceIndex, h]

theorem sliceIndex_err {l : List α} {i : Nat} (h : l.length ≤ i) :
    sliceIndex l i = .error .IndexOutOfRange := by
  simp [sliceIndex, List.getElem?_eq_none h]

theorem Matrix.entry_eq_of_lt [Zero α] {m : Matrix α} (hw : m.Wf) {i j : Nat}
    (h : m.n * i + j < m.n * m.n) :
    m.values[m.n * i + j]? = some (m.entry i j) := by
  have hlen : m.n * i + j < m.values.length := by rw [hw]; exact h
  rcases List.getElem?_eq_some_iff.2 ⟨hlen, rfl⟩ with h2
  simp [Matrix.entry, List.getD_eq_getElem?_getD, h2]

theorem Matrix.index_ok [Zero α] {m : Matrix α} (hw : m.Wf) {i j : Nat}
    (h : m.n * i + j < m.n * m.n) : m.index (i, j) = .ok (m.entry i j) := by
  exact sliceIndex_ok (Matrix.entry_eq_of_lt hw h)

theorem Matrix.index_err {m : Matrix α} (hw : m.Wf) {i j : Nat}
    (h : m.n * m.n ≤ m.n * i + j) : m.index (i, j) = .error .IndexOutOfRange := by
  apply sliceIndex_err
  rw [hw]
  exact h

theorem Matrix.set_ok {m : Matrix α} (hw : m.Wf) {i j : Nat}
    (h : m.n * i + j < m.n * m.n) (v : α) : m.set (i, j) v = .ok (setCell m i j v) := by
  have hlen : m.n * i + j < m.values.length := by rw [hw]; exact h
  simp [Matrix.set, hlen, setCell]

theorem Matrix.set_err {m : Matrix α} (hw : m.Wf) {i j : Nat}
    (h : m.n * m.n ≤ m.n * i + j) (v : α) : m.set (i, j) v = .error .IndexOutOfRange := by
  have hlen : ¬ (m.n * i + j < m.values.length) := by rw [hw]; omega
  simp [Matrix.set, hlen]

theorem setCell_n (c : Matrix α) (i j : Nat) (v : α) : (setCell c i j v).n = c.n := rfl

theorem setCell_wf {c : Matrix α} (hw : c.Wf) (i j : Nat) (v : α) :
    (setCell c i j v).Wf := by
  simp [Matrix.Wf, setCell] at *
  exact hw

theorem entry_setCell_self [Zero α] {c : Matrix α} (hw : c.Wf) {i j : Nat}
    (hi : i < c.n) (hj : j < c.n) (v : α) : (setCell c i j v).entry i j = v := by
  have hlen : c.n * i + j < c.values.length := by
    rw [hw]; exact off_lt hi hj
  simp [setCell, Matrix.entry, List.getD_eq_getElem?_getD, List.getElem?_set_self hlen]

theorem entry_setCell_other [Zero α] {c : Matrix α} (hw : c.Wf) {i j i2 j2 : Nat}
    (hi : i < c.n) (hj : j < c.n) (hi2 : i2 < c.n) (hj2 : j2 < c.n)
    (hne : ¬(i2 = i ∧ j2 = j)) (v : α) :
    (setCell c i j v).entry i2 j2 = c.entry i2 j2 := by
  have hoff : c.n * i + j ≠ c.n * i2 + j2 := by
    intro h
    exact hne ⟨(off_inj hi hj hi2 hj2 h).1.symm, (off_inj hi hj hi2 hj2 h).2.symm⟩
  simp [setCell, Matrix.entry, List.getD_eq_getElem?_getD, List.getElem?_set_ne hoff]

theorem zero_n [Zero α] (n : Nat) : (Matrix.zero n : Matrix α).n = n := rfl

theorem zero_wf [Zero α] (n : Nat) : (Matrix.zero n : Matrix α).Wf := by
  simp [Matrix.Wf, Matrix.zero]

theorem zero_entry [Zero α] (n i j : Nat) : (Matrix.zero n : Matrix α).entry i j = 0 := by
  unfold Matrix.entry Matrix.zero
  simp [List.getD_eq_getElem?_getD, List.getElem?_replicate]
  split <;> rfl

theorem foldME_ok_cons {σ β : Type} {f : σ → β → Except MatErr σ} {s s2 : σ} {x : β}
    {xs : List β} (h : f s x = .ok s2) : foldME f s (x :: xs) = foldME f s2 xs := by
  simp [foldME, h]

theorem mapME_ok {β γ : Type} {f : β → Except MatErr γ} {g : β → γ} :
    ∀ {l : List β}, (∀ x ∈ l, f x = .ok (g x)) → mapME f l = .ok (l.map g)
  | [], _ => rfl
  | x :: xs, h => by
    have hx : f x = .ok (g x) := h x (by simp)
    have hxs : mapME f xs = .ok (xs.map g) := mapME_ok (fun y hy => h y (by simp [hy]))
    simp [mapME, hx, hxs]

theorem dotk_nil [Zero α] [Add α] [Mul α] (a b : Matrix α) (i j : Nat) (init : α) :
    dotk a b i j [] init = init := rfl

theorem dotk_cons [Zero α] [Add α] [Mul α] (a b : Matrix α) (i j k : Nat) (ks : List Nat)
    (init : α) :
    dotk a b i j (k :: ks) init = dotk a b i j ks (init + a.entry i k * b.entry k j) := rfl

theorem dotk_append [Zero α] [Add α] [Mul α] (a b : Matrix α) (i j : Nat)
    (ks1 ks2 : List Nat) (init : α) :
    dotk a b i j (ks1 ++ ks2) init = dotk a b i j ks2 (dotk a b i j ks1 init) := by
  simp [dotk, List.foldl_append]

theorem Matrix.ext_entry [Zero α] {c d : Matrix α} (hn : c.n = d.n) (hc : c.Wf) (hd : d.Wf)
    (h : ∀ i j, i < c.n → j < c.n → c.entry i j = d.entry i j) : c = d := by
  obtain ⟨cn, cv⟩ := c
  obtain ⟨dn, dv⟩ := d
  simp only at hn
  subst hn
  simp only [Matrix.mk.injEq, true_and]
  have hc2 : cv.length = cn * cn := hc
  have hd2 : dv.length = cn * cn := hd
  apply List.ext_getElem?
  intro off
  by_cases hoff : off < cn * cn
  · have hcn : 0 < cn := by
      rcases Nat.eq_zero_or_pos cn with h0 | h0
      · subst h0
        simp at hoff
      · exact h0
    have hi : off / cn < cn := by
      exact Nat.div_lt_of_lt_mul (by omega)
    have hj : off % cn < cn := Nat.mod_lt _ hcn
    have hdecomp : cn * (off / cn) + off % cn = off := by
      have := Nat.div_add_mod off cn
      omega
    have he := h (off / cn) (off % cn) hi hj
    simp only [Matrix.entry] at he
    have hlc : cn * (off / cn) + off % cn < cv.length := by rw [hc2]; omega
    have hld : cn * (off / cn) + off % cn < dv.length := by rw [hd2]; omega
    rw [List.getD_eq_getElem?_getD, List.getD_eq_getElem?_getD] at he
    rw [List.getElem?_eq_getElem hlc, List.getElem?_eq_getElem hld] at he
    simp only [Option.getD_some] at he
    rw [← hdecomp]
    rw [List.getElem?_eq_getElem hlc, List.getElem?_eq_getElem hld, he]
  · have h1 : cv.length ≤ off := by omega
    have h2 : dv.length ≤ off := by omega
    rw [List.getElem?_eq_none h1, List.getElem?_eq_none h2]

theorem mulSpec_n [Zero α] [Add α] [Mul α] (a b : Matrix α) : (mulSpec a b).n = a.n := rfl

theorem mulSpec_wf [Zero α] [Add α] [Mul α] (a b : Matrix α) : (mulSpec a b).Wf := by
  simp [Matrix.Wf, mulSpec]

theorem mulSpec_entry [Zero α] [Add α] [Mul α] (a b : Matrix α) {i j : Nat}
    (hi : i < a.n) (hj : j < a.n) :
    (mulSpec a b).entry i j = dotk a b i j (List.range a.n) 0 := by
  have hn : 0 < a.n := by omega
  have hoff : a.n * i + j < a.n * a.n := off_lt hi hj
  have d1 : (a.n * i + j) / a.n = i := by
    rw [Nat.mul_add_div hn, Nat.div_eq_of_lt hj]
    omega
  have m1 : (a.n * i + j) % a.n = j := by
    rw [Nat.mul_add_mod, Nat.mod_eq_of_lt hj]
  simp only [Matrix.entry, mulSpec, List.getD_eq_getElem?_getD]
  rw [List.getElem?_map, List.getElem?_range hoff]
  simp [d1, m1]

end BasicLemmas

section LoopNestLemmas

variable {α : Type} [Zero α] [Add α] [Mul α]

theorem macBody_ok {a b c : Matrix α} {n : Nat}
    (ha : a.Wf) (hb : b.Wf) (hc : c.Wf) (han : a.n = n) (hbn : b.n = n) (hcn : c.n = n)
    {i j k : Nat} (hi : i < n) (hj : j < n) (hk : k < n) :
    macBody a b c i j k = .ok (setCell c i j (c.entry i j + a.entry i k * b.entry k j)) := by
  have hA := Matrix.index_ok (i := i) (j := k) ha (by rw [han]; exact off_lt hi hk)
  have hB := Matrix.index_ok (i := k) (j := j) hb (by rw [hbn]; exact off_lt hk hj)
  have hC := Matrix.index_ok (i := i) (j := j) hc (by rw [hcn]; exact off_lt hi hj)
  have hS := Matrix.set_ok (i := i) (j := j) hc (by rw [hcn]; exact off_lt hi hj)
    (c.entry i j + a.entry i k * b.entry k j)
  simp [macBody, hA, hB, hC, hS]

theorem kfold_ok {a b : Matrix α} {n : Nat}
    (ha : a.Wf) (hb : b.Wf) (han : a.n = n) (hbn : b.n = n)
    {i j : Nat} (hi : i < n) (hj : j < n) :
    ∀ (ks : List Nat), (∀ k ∈ ks, k < n) → ∀ (c : Matrix α), c.Wf → c.n = n →
    ∃ d, foldME (fun c k => macBody a b c i j k) c ks = .ok d ∧ d.n = n ∧ d.Wf ∧
      d.entry i j = dotk a b i j ks (c.entry i j) ∧
      (∀ i2 j2, i2 < n → j2 < n → ¬(i2 = i ∧ j2 = j) → d.entry i2 j2 = c.entry i2 j2)
  | [], hks, c, hc, hcn => ⟨c, rfl, hcn, hc, rfl, fun _ _ _ _ _ => rfl⟩
  | k :: ks, hks, c, hc, hcn => by
    have hk : k < n := hks k (by simp)
    have hmac := macBody_ok ha hb hc han hbn hcn hi hj hk
    have hc1wf : (setCell c i j (c.entry i j + a.entry i k * b.entry k j)).Wf :=
      setCell_wf hc _ _ _
    have hc1n : (setCell c i j (c.entry i j + a.entry i k * b.entry k j)).n = n := by
      rw [setCell_n]; exact hcn
    obtain ⟨d, hfold, hdn, hdwf, hdij, hdother⟩ :=
      kfold_ok ha hb han hbn hi hj ks (fun k2 hk2 => hks k2 (by simp [hk2]))
        (setCell c i j (c.entry i j + a.entry i k * b.entry k j)) hc1wf hc1n
    refine ⟨d, ?_, hdn, hdwf, ?_, ?_⟩
    · rw [foldME_ok_cons hmac]
      exact hfold
    · rw [hdij, dotk_cons]
      congr 1
      exact entry_setCell_self hc (by rw [hcn]; exact hi) (by rw [hcn]; exact hj) _
    · intro i2 j2 hi2 hj2 hne
      rw [hdother i2 j2 hi2 hj2 hne]
      exact entry_setCell_other hc (by rw [hcn]; exact hi) (by rw [hcn]; exact hj)
        (by rw [hcn]; exact hi2) (by rw [hcn]; exact hj2) hne _

theorem jfold_ok {a b : Matrix α} {n : Nat}
    (ha : a.Wf) (hb : b.Wf) (han : a.n = n) (hbn : b.n = n)
    {i : Nat} (hi : i < n) {ks : List Nat} (hks : ∀ k ∈ ks, k < n) :
    ∀ (js : List Nat), js.Nodup → (∀ j ∈ js, j < n) → ∀ (c : Matrix α), c.Wf → c.n = n →
    ∃ d, foldME (fun c j => foldME (fun c k => macBody a b c i j k) c ks) c js = .ok d ∧
      d.n = n ∧ d.Wf ∧
      (∀ i2 j2, i2 < n → j2 < n →
        d.entry i2 j2 = if i2 = i ∧ j2 ∈ js then dotk a b i2 j2 ks (c.entry i2 j2)
          else c.entry i2 j2)
  | [], hnd, hjs, c, hc, hcn => ⟨c, rfl, hcn, hc, by
      intro i2 j2 hi2 hj2
      simp⟩
  | j :: js, hnd, hjs, c, hc, hcn => by
    have hj : j < n := hjs j (by simp)
    have hjnotin : j ∉ js := (List.nodup_cons.1 hnd).1
    obtain ⟨c1, hrun1, hc1n, hc1wf, hc1ij, hc1other⟩ :=
      kfold_ok ha hb han hbn hi hj ks hks c hc hcn
    obtain ⟨d, hrun, hdn, hdwf, hchar⟩ :=
      jfold_ok ha hb han hbn hi hks js (List.nodup_cons.1 hnd).2
        (fun j2 hj2 => hjs j2 (by simp [hj2])) c1 hc1wf hc1n
    refine ⟨d, ?_, hdn, hdwf, ?_⟩
    · rw [foldME_ok_cons (f := fun c j => foldME (fun c k => macBody a b c i j k) c ks)
        (x := j) hrun1]
      exact hrun
    · intro i2 j2 hi2 hj2
      have hIH := hchar i2 j2 hi2 hj2
      by_cases hii : i2 = i
      · by_cases hjj : j2 = j
        · subst hii
          subst hjj
          have hnotin : ¬(i2 = i2 ∧ j2 ∈ js) := by
            intro hcontra
            exact hjnotin (hcontra.2)
          rw [hIH, if_neg hnotin, if_pos ⟨rfl, by simp⟩, hc1ij]
        · by_cases hmem : j2 ∈ js
          · have hc1e : c1.entry i2 j2 = c.entry i2 j2 :=
              hc1other i2 j2 hi2 hj2 (by simp [hjj])
            rw [hIH, if_pos ⟨hii, hmem⟩, if_pos ⟨hii, by simp [hmem]⟩, hc1e]
          · have hc1e : c1.entry i2 j2 = c.entry i2 j2 :=
              hc1other i2 j2 hi2 hj2 (by simp [hjj])
            have hnotmem : j2 ∉ j :: js := by simp [hjj, hmem]
            rw [hIH, if_neg (by simp [hmem]), if_neg (by
              intro hcontra
              exact hnotmem hcontra.2), hc1e]
      · have hc1e : c1.entry i2 j2 = c.entry i2 j2 :=
          hc1other i2 j2 hi2 hj2 (by simp [hii])
        rw [hIH, if_neg (by simp [hii]), if_neg (by simp [hii]), hc1e]

theorem tripleMAC_ok {a b : Matrix α} {n : Nat}
    (ha : a.Wf) (hb : b.Wf) (han : a.n = n) (hbn : b.n = n)
    (ks : List Nat) (hks : ∀ k ∈ ks, k < n)
    (js : List Nat) (hjsnd : js.Nodup) (hjs : ∀ j ∈ js, j < n) :
    ∀ (is : List Nat), is.Nodup → (∀ i2 ∈ is, i2 < n) → ∀ (c : Matrix α), c.Wf → c.n = n →
    ∃ d, tripleMAC a b is js ks c = .ok d ∧ d.n = n ∧ d.Wf ∧
      (∀ i2 j2, i2 < n → j2 < n →
        d.entry i2 j2 = if i2 ∈ is ∧ j2 ∈ js then dotk a b i2 j2 ks (c.entry i2 j2)
          else c.entry i2 j2)
  | [], hnd, his, c, hc, hcn => ⟨c, rfl, hcn, hc, by
      intro i2 j2 hi2 hj2
      simp⟩
  | i :: is, hnd, his, c, hc, hcn => by
    have hi : i < n := his i (by simp)
    have hinotin : i ∉ is := (List.nodup_cons.1 hnd).1
    obtain ⟨c1, hrun1, hc1n, hc1wf, hchar1⟩ :=
      jfold_ok ha hb han hbn hi hks js hjsnd hjs c hc hcn
    obtain ⟨d, hrun, hdn, hdwf, hchar⟩ :=
      tripleMAC_ok ha hb han hbn ks hks js hjsnd hjs is (List.nodup_cons.1 hnd).2
        (fun i2 hi2 => his i2 (by simp [hi2])) c1 hc1wf hc1n
    refine ⟨d, ?_, hdn, hdwf, ?_⟩
    · rw [tripleMAC, foldME_ok_cons
        (f := fun c i => foldME (fun c j => foldME (fun c k => macBody a b c i j k) c ks) c js)
        (x := i) hrun1]
      exact hrun
    · intro i2 j2 hi2 hj2
      have hIH := hchar i2 j2 hi2 hj2
      have hc1e := hchar1 i2 j2 hi2 hj2
      by_cases hmem : i2 ∈ is
      · have hii : i2 ≠ i := by
          intro hcontra
          rw [hcontra] at hmem
          exact hinotin hmem
        by_cases hjmem : j2 ∈ js
        · rw [hIH, if_pos ⟨hmem, hjmem⟩, if_pos ⟨by simp [hmem], hjmem⟩, hc1e,
            if_neg (by simp [hii])]
        · rw [hIH, if_neg (by simp [hjmem]), if_neg (by simp [hjmem]), hc1e,
            if_neg (by simp [hii])]
      · by_cases hii : i2 = i
        · rw [hIH, if_neg (by simp [hmem]), hc1e]
          subst hii
          by_cases hjmem : j2 ∈ js
          · rw [if_pos ⟨rfl, hjmem⟩, if_pos ⟨by simp, hjmem⟩]
          · rw [if_neg (by simp [hjmem]), if_neg (by simp [hjmem])]
        · have hnotin2 : i2 ∉ i :: is := by simp [hii, hmem]
          rw [hIH, if_neg (by simp [hmem]), hc1e, if_neg (by simp [hii]),
            if_neg (by
              intro hcontra
              exact hnotin2 hcontra.1)]

/-- The naive multiplier computes the canonical specification whenever the
operands are well-formed and of equal dimension. -/
theorem multiply_ok {a b : Matrix α} (ha : a.Wf) (hb : b.Wf) (hn : a.n = b.n) :
    multiply a b = .ok (mulSpec a b) := by
  unfold multiply
  rw [if_pos hn]
  obtain ⟨d, hrun, hdn, hdwf, hchar⟩ :=
    tripleMAC_ok (n := a.n) ha hb rfl hn.symm
      (List.range a.n) (fun k hk => List.mem_range.1 hk)
      (List.range a.n) (List.nodup_range _) (fun j hj => List.mem_range.1 hj)
      (List.range a.n) (List.nodup_range _) (fun i hi => List.mem_range.1 hi)
      (Matrix.zero a.n) (zero_wf _) (zero_n _)
  rw [hrun]
  congr 1
  apply Matrix.ext_entry (by rw [hdn, mulSpec_n]) hdwf (mulSpec_wf a b)
  intro i j hi hj
  rw [hdn] at hi hj
  rw [hchar i j hi hj, if_pos ⟨List.mem_range.2 hi, List.mem_range.2 hj⟩,
    mulSpec_entry a b hi hj, zero_entry]

end LoopNestLemmas

section BlockedLemmas

variable {α : Type} [Zero α] [Add α] [Mul α]

/-- Concatenation of the tile ranges of a list of block indices. -/
def blockRanges (s : Nat) : List Nat → List Nat
  | [] => []
  | t :: ts => List.range' (t * s) s ++ blockRanges s ts

theorem blockRanges_append (s : Nat) :
    ∀ (l1 l2 : List Nat), blockRanges s (l1 ++ l2) = blockRanges s l1 ++ blockRanges s l2
  | [], l2 => rfl
  | t :: ts, l2 => by
    simp [blockRanges, blockRanges_append s ts l2]

theorem blockRanges_range (s : Nat) : ∀ (m : Nat), blockRanges s (List.range m) = List.range (m * s)
  | 0 => by simp [blockRanges]
  | m + 1 => by
    rw [List.range_succ, blockRanges_append, blockRanges_range s m]
    show List.range (m * s) ++ (List.range' (m * s) s ++ blockRanges s []) = _
    rw [show blockRanges s [] = [] from rfl, List.append_nil]
    rw [List.range_eq_range', List.range_eq_range']
    have h0 : (0 : Nat) + m * s = m * s := by omega
    have := List.range'_append_1 0 (m * s) s
    rw [h0] at this
    rw [this]
    congr 1
    ring

theorem mem_block_iff {t j : Nat} : j ∈ List.range' (t * BLOCK) BLOCK ↔ j / BLOCK = t := by
  rw [List.mem_range'_1]
  show t * 64 ≤ j ∧ j < t * 64 + 64 ↔ j / 64 = t
  omega

theorem block_elt_lt {nn kk k : Nat} (hkk : kk < nn)
    (hk : k ∈ List.range' (kk * BLOCK) BLOCK) : k < nn * BLOCK := by
  rw [List.mem_range'_1] at hk
  have h1 : (kk + 1) * BLOCK ≤ nn * BLOCK := Nat.mul_le_mul_right _ (by omega)
  have h2 : (kk + 1) * BLOCK = kk * BLOCK + BLOCK := by ring
  omega

theorem kkfold_ok {a b : Matrix α} {n : Nat}
    (ha : a.Wf) (hb : b.Wf) (han : a.n = n) (hbn : b.n = n)
    {Ii Jj : List Nat} (hInd : Ii.Nodup) (hIi : ∀ i ∈ Ii, i < n)
    (hJnd : Jj.Nodup) (hJj : ∀ j ∈ Jj, j < n) :
    ∀ (kks : List Nat), (∀ kk ∈ kks, ∀ k ∈ List.range' (kk * BLOCK) BLOCK, k < n) →
    ∀ (c : Matrix α), c.Wf → c.n = n →
    ∃ d, foldME (fun c kk =>
        tripleMAC a b Ii Jj (List.range' (kk * BLOCK) BLOCK) c) c kks = .ok d ∧
      d.n = n ∧ d.Wf ∧
      (∀ i2 j2, i2 < n → j2 < n →
        d.entry i2 j2 = if i2 ∈ Ii ∧ j2 ∈ Jj
          then dotk a b i2 j2 (blockRanges BLOCK kks) (c.entry i2 j2)
          else c.entry i2 j2)
  | [], hkks, c, hc, hcn => ⟨c, rfl, hcn, hc, by
      intro i2 j2 hi2 hj2
      show c.entry i2 j2 = if i2 ∈ Ii ∧ j2 ∈ Jj then dotk a b i2 j2 [] (c.entry i2 j2)
        else c.entry i2 j2
      rw [dotk_nil]
      split <;> rfl⟩
  | kk :: kks, hkks, c, hc, hcn => by
    obtain ⟨c1, hrun1, hc1n, hc1wf, hchar1⟩ :=
      tripleMAC_ok ha hb han hbn (List.range' (kk * BLOCK) BLOCK)
        (hkks kk (by simp)) Jj hJnd hJj Ii hInd hIi c hc hcn
    obtain ⟨d, hrun, hdn, hdwf, hchar⟩ :=
      kkfold_ok ha hb han hbn hInd hIi hJnd hJj kks
        (fun kk2 hkk2 => hkks kk2 (by simp [hkk2])) c1 hc1wf hc1n
    refine ⟨d, ?_, hdn, hdwf, ?_⟩
    · rw [foldME_ok_cons
        (f := fun c kk => tripleMAC a b Ii Jj (List.range' (kk * BLOCK) BLOCK) c)
        (x := kk) hrun1]
      exact hrun
    · intro i2 j2 hi2 hj2
      rw [hchar i2 j2 hi2 hj2, hchar1 i2 j2 hi2 hj2]
      by_cases hmem : i2 ∈ Ii ∧ j2 ∈ Jj
      · rw [if_pos hmem, if_pos hmem, if_pos hmem]
        show dotk a b i2 j2 (blockRanges BLOCK kks) _ =
          dotk a b i2 j2 (List.range' (kk * BLOCK) BLOCK ++ blockRanges BLOCK kks) _
        rw [dotk_append]
      · rw [if_neg hmem, if_neg hmem, if_neg hmem]

theorem jjfold_ok {a b : Matrix α} {n nn : Nat}
    (ha : a.Wf) (hb : b.Wf) (han : a.n = n) (hbn : b.n = n) (hnB : n = nn * BLOCK)
    {Ii : List Nat} (hInd : Ii.Nodup) (hIi : ∀ i ∈ Ii, i < n) :
    ∀ (jjs : List Nat), jjs.Nodup → (∀ jj ∈ jjs, jj < nn) →
    ∀ (c : Matrix α), c.Wf → c.n = n →
    ∃ d, foldME (fun c jj =>
        foldME (fun c kk =>
          tripleMAC a b Ii (List.range' (jj * BLOCK) BLOCK)
            (List.range' (kk * BLOCK) BLOCK) c) c (List.range nn)) c jjs = .ok d ∧
      d.n = n ∧ d.Wf ∧
      (∀ i2 j2, i2 < n → j2 < n →
        d.entry i2 j2 = if i2 ∈ Ii ∧ j2 / BLOCK ∈ jjs
          then dotk a b i2 j2 (List.range n) (c.entry i2 j2)
          else c.entry i2 j2)
  | [], hnd, hjjs, c, hc, hcn => ⟨c, rfl, hcn, hc, by
      intro i2 j2 hi2 hj2
      simp⟩
  | jj :: jjs, hnd, hjjs, c, hc, hcn => by
    have hjj : jj < nn := hjjs jj (by simp)
    have hjjnotin : jj ∉ jjs := (List.nodup_cons.1 hnd).1
    have hJj : ∀ j ∈ List.range' (jj * BLOCK) BLOCK, j < n := by
      intro j hj
      rw [hnB]
      exact block_elt_lt hjj hj
    obtain ⟨c1, hrun1, hc1n, hc1wf, hchar1⟩ :=
      kkfold_ok ha hb han hbn hInd hIi (List.nodup_range' _ _) hJj (List.range nn)
        (by
          intro kk hkk k hk
          rw [hnB]
          exact block_elt_lt (List.mem_range.1 hkk) hk) c hc hcn
    obtain ⟨d, hrun, hdn, hdwf, hchar⟩ :=
      jjfold_ok ha hb han hbn hnB hInd hIi jjs (List.nodup_cons.1 hnd).2
        (fun jj2 hjj2 => hjjs jj2 (by simp [hjj2])) c1 hc1wf hc1n
    have hfull : blockRanges BLOCK (List.range nn) = List.range n := by
      rw [blockRanges_range, ← hnB]
    refine ⟨d, ?_, hdn, hdwf, ?_⟩
    · rw [foldME_ok_cons
        (f := fun c jj => foldME (fun c kk =>
          tripleMAC a b Ii (List.range' (jj * BLOCK) BLOCK)
            (List.range' (kk * BLOCK) BLOCK) c) c (List.range nn))
        (x := jj) hrun1]
      exact hrun
    · intro i2 j2 hi2 hj2
      have hIH := hchar i2 j2 hi2 hj2
      have hc1e := hchar1 i2 j2 hi2 hj2
      rw [hfull] at hc1e
      by_cases hii : i2 ∈ Ii
      · by_cases hblk : j2 / BLOCK = jj
        · have hj2mem : j2 ∈ List.range' (jj * BLOCK) BLOCK := mem_block_iff.2 hblk
          have hnotintail : j2 / BLOCK ∉ jjs := by
            rw [hblk]
            exact hjjnotin
          rw [hIH, if_neg (by
            intro hcontra
            exact hnotintail hcontra.2), hc1e, if_pos ⟨hii, hj2mem⟩,
            if_pos ⟨hii, by simp [hblk]⟩]
        · have hj2notmem : j2 ∉ List.range' (jj * BLOCK) BLOCK := by
            intro hcontra
            exact hblk (mem_block_iff.1 hcontra)
          by_cases htail : j2 / BLOCK ∈ jjs
          · have hconsmem : j2 / BLOCK ∈ jj :: jjs := List.mem_cons_of_mem _ htail
            rw [hIH, if_pos ⟨hii, htail⟩, hc1e, if_neg (by
              intro hcontra
              exact hj2notmem hcontra.2), if_pos ⟨hii, hconsmem⟩]
          · have hconsnot : j2 / BLOCK ∉ jj :: jjs := by
              rw [List.mem_cons]
              push_neg
              exact ⟨hblk, htail⟩
            rw [hIH, if_neg (by
              intro hcontra
              exact htail hcontra.2), hc1e, if_neg (by
              intro hcontra
              exact hj2notmem hcontra.2), if_neg (by
              intro hcontra
              exact hconsnot hcontra.2)]
      · rw [hIH, if_neg (by simp [hii]), hc1e, if_neg (by simp [hii]),
          if_neg (by simp [hii])]

theorem iifold_ok {a b : Matrix α} {n nn : Nat}
    (ha : a.Wf) (hb : b.Wf) (han : a.n = n) (hbn : b.n = n) (hnB : n = nn * BLOCK) :
    ∀ (iis : List Nat), iis.Nodup → (∀ ii ∈ iis, ii < nn) →
    ∀ (c : Matrix α), c.Wf → c.n = n →
    ∃ d, foldME (fun c ii =>
        foldME (fun c jj =>
          foldME (fun c kk =>
            tripleMAC a b (List.range' (ii * BLOCK) BLOCK)
              (List.range' (jj * BLOCK) BLOCK)
              (List.range' (kk * BLOCK) BLOCK) c) c (List.range nn))
          c (List.range nn)) c iis = .ok d ∧
      d.n = n ∧ d.Wf ∧
      (∀ i2 j2, i2 < n → j2 < n →
        d.entry i2 j2 = if i2 / BLOCK ∈ iis
          then dotk a b i2 j2 (List.range n) (c.entry i2 j2)
          else c.entry i2 j2)
  | [], hnd, hiis, c, hc, hcn => ⟨c, rfl, hcn, hc, by
      intro i2 j2 hi2 hj2
      simp⟩
  | ii :: iis, hnd, hiis, c, hc, hcn => by
    have hii : ii < nn := hiis ii (by simp)
    have hiinotin : ii ∉ iis := (List.nodup_cons.1 hnd).1
    have hIi : ∀ i ∈ List.range' (ii * BLOCK) BLOCK, i < n := by
      intro i hi
      rw [hnB]
      exact block_elt_lt hii hi
    obtain ⟨c1, hrun1, hc1n, hc1wf, hchar1⟩ :=
      jjfold_ok ha hb han hbn hnB (List.nodup_range' _ _) hIi (List.range nn)
        (List.nodup_range _) (fun jj hjj => List.mem_range.1 hjj) c hc hcn
    obtain ⟨d, hrun, hdn, hdwf, hchar⟩ :=
      iifold_ok ha hb han hbn hnB iis (List.nodup_cons.1 hnd).2
        (fun ii2 hii2 => hiis ii2 (by simp [hii2])) c1 hc1wf hc1n
    refine ⟨d, ?_, hdn, hdwf, ?_⟩
    · rw [foldME_ok_cons
        (f := fun c ii => foldME (fun c jj =>
          foldME (fun c kk =>
            tripleMAC a b (List.range' (ii * BLOCK) BLOCK)
              (List.range' (jj * BLOCK) BLOCK)
              (List.range' (kk * BLOCK) BLOCK) c) c (List.range nn)) c (List.range nn))
        (x := ii) hrun1]
      exact hrun
    · intro i2 j2 hi2 hj2
      have hIH := hchar i2 j2 hi2 hj2
      have hc1e := hchar1 i2 j2 hi2 hj2
      have hj2blk : j2 / BLOCK ∈ List.range nn := by
        rw [List.mem_range]
        rw [hnB] at hj2
        rw [Nat.div_lt_iff_lt_mul (by
          show 0 < 64
          omega)]
        exact hj2
      by_cases hblk : i2 / BLOCK = ii
      · have hi2mem : i2 ∈ List.range' (ii * BLOCK) BLOCK := mem_block_iff.2 hblk
        have hnotintail : i2 / BLOCK ∉ iis := by
          rw [hblk]
          exact hiinotin
        rw [hIH, if_neg hnotintail, hc1e, if_pos ⟨hi2mem, hj2blk⟩,
          if_pos (by simp [hblk])]
      · have hi2notmem : i2 ∉ List.range' (ii * BLOCK) BLOCK := by
          intro hcontra
          exact hblk (mem_block_iff.1 hcontra)
        by_cases htail : i2 / BLOCK ∈ iis
        · have hconsmem : i2 / BLOCK ∈ ii :: iis := List.mem_cons_of_mem _ htail
          rw [hIH, if_pos htail, hc1e, if_neg (by
            intro hcontra
            exact hi2notmem hcontra.1), if_pos hconsmem]
        · have hconsnot : i2 / BLOCK ∉ ii :: iis := by
            rw [List.mem_cons]
            push_neg
            exact ⟨hblk, htail⟩
          rw [hIH, if_neg htail, hc1e, if_neg (by
            intro hcontra
            exact hi2notmem hcontra.1), if_neg hconsnot]

/-- The blocked multiplier computes the canonical specification whenever the
operands are well-formed, of equal dimension, and the dimension is a
multiple of the tile size. -/
theorem multiply_blocked_ok {a b : Matrix α} (ha : a.Wf) (hb : b.Wf) (hn : a.n = b.n)
    (hal : a.n % BLOCK = 0) : multiply_blocked a b = .ok (mulSpec a b) := by
  unfold multiply_blocked
  rw [if_pos hn]
  have hnbv : a.number_of_blocks = .ok (a.n / BLOCK) := by
    simp [Matrix.number_of_blocks, hal]
  simp only [hnbv]
  have hnB : a.n = (a.n / BLOCK) * BLOCK := by
    have := Nat.div_mul_cancel (Nat.dvd_of_mod_eq_zero hal)
    omega
  obtain ⟨d, hrun, hdn, hdwf, hchar⟩ :=
    iifold_ok (n := a.n) ha hb rfl hn.symm hnB
      (List.range (a.n / BLOCK)) (List.nodup_range _)
      (fun ii hii => List.mem_range.1 hii) (Matrix.zero a.n) (zero_wf _) (zero_n _)
  rw [hrun]
  congr 1
  apply Matrix.ext_entry (by rw [hdn, mulSpec_n]) hdwf (mulSpec_wf a b)
  intro i j hi hj
  rw [hdn] at hi hj
  have hiblk : i / BLOCK ∈ List.range (a.n / BLOCK) := by
    rw [List.mem_range]
    rw [hnB] at hi
    rw [Nat.div_lt_iff_lt_mul (by
      show 0 < 64
      omega)]
    exact hi
  rw [hchar i j hi hj, if_pos hiblk, mulSpec_entry a b hi hj, zero_entry]

/-- Blocked and naive agree wherever both are defined. -/
theorem blocked_eq_naive {a b : Matrix α} (ha : a.Wf) (hb : b.Wf) (hn : a.n = b.n)
    (hal : a.n % BLOCK = 0) : multiply_blocked a b = multiply a b := by
  rw [multiply_blocked_ok ha hb hn hal, multiply_ok ha hb hn]

end BlockedLemmas

section IterLemmas

variable {α : Type} [Zero α] [Add α] [Mul α]

theorem chunkList_nil (k : Nat) : chunkList k ([] : List α) = [] := by
  rw [chunkList]
  simp

theorem chunkList_cons_expand {k : Nat} {l : List α} (hk : k ≠ 0) (hl : l ≠ []) :
    chunkList k l = l.take k :: chunkList k (l.drop k) := by
  conv_lhs => rw [chunkList]
  rw [dif_neg (by simp [hk, hl])]

theorem chunkList_length_get {k : Nat} (hk : 0 < k) :
    ∀ (m : Nat) (l : List α), l.length = m * k →
    (chunkList k l).length = m ∧
      ∀ r, r < m → (chunkList k l)[r]? = some ((l.drop (r * k)).take k)
  | 0, l, hl => by
    have hz : (0 : Nat) * k = 0 := by omega
    have hnil : l = [] := List.eq_nil_of_length_eq_zero (by omega)
    subst hnil
    refine ⟨by simp [chunkList_nil], ?_⟩
    intro r hr
    omega
  | m + 1, l, hl => by
    have hmul : (m + 1) * k = m * k + k := by ring
    have hlne : l ≠ [] := by
      intro h0
      rw [h0] at hl
      simp at hl
      omega
    rw [chunkList_cons_expand (by omega) hlne]
    have hdroplen : (l.drop k).length = m * k := by
      rw [List.length_drop]
      omega
    obtain ⟨ihlen, ihget⟩ := chunkList_length_get hk m (l.drop k) hdroplen
    refine ⟨by simp [ihlen], ?_⟩
    intro r hr
    cases r with
    | zero =>
      simp
    | succ r2 =>
      have hr2 : r2 < m := by omega
      rw [List.getElem?_cons_succ, ihget r2 hr2]
      congr 2
      rw [List.drop_drop]
      congr 1
      ring

theorem chunksE_ok {k : Nat} (hk : k ≠ 0) (l : List α) :
    chunksE l k = .ok (chunkList k l) := by
  simp [chunksE, hk]

theorem chunkList_zero_values {n : Nat} (hn : 0 < n) :
    chunkList n ((Matrix.zero n : Matrix α).values) =
      List.replicate n (List.replicate n 0) := by
  obtain ⟨hlen, hget⟩ := chunkList_length_get hn n ((Matrix.zero n : Matrix α).values)
    (by simp [Matrix.zero])
  apply List.ext_getElem?
  intro r
  by_cases hr : r < n
  · rw [hget r hr, List.getElem?_replicate_of_lt hr]
    congr 1
    show ((List.replicate (n * n) (0 : α)).drop (r * n)).take n = List.replicate n 0
    rw [List.drop_replicate, List.take_replicate]
    congr 1
    have h1 : (r + 1) * n ≤ n * n := Nat.mul_le_mul_right n (by omega)
    have h2 : (r + 1) * n = r * n + n := by ring
    omega
  · rw [List.getElem?_eq_none (by rw [hlen]; omega),
      List.getElem?_eq_none (by rw [List.length_replicate]; omega)]

theorem chunkList_rows {a : Matrix α} (ha : a.Wf) (hn : 0 < a.n) :
    chunkList a.n a.values =
      (List.range a.n).map (fun r => (a.values.drop (r * a.n)).take a.n) := by
  obtain ⟨hlen, hget⟩ := chunkList_length_get hn a.n a.values ha
  apply List.ext_getElem?
  intro r
  by_cases hr : r < a.n
  · rw [hget r hr, List.getElem?_map, List.getElem?_range hr]
    rfl
  · rw [List.getElem?_eq_none (by rw [hlen]; omega),
      List.getElem?_eq_none (by rw [List.length_map, List.length_range]; omega)]

theorem avrow_get {a : Matrix α} (ha : a.Wf) {r : Nat} (hr : r < a.n) {j : Nat}
    (hj : j < a.n) :
    ((a.values.drop (r * a.n)).take a.n)[j]? = some (a.entry r j) := by
  rw [List.getElem?_take_of_lt hj, List.getElem?_drop]
  have hco : r * a.n + j = a.n * r + j := by ring
  rw [hco]
  exact Matrix.entry_eq_of_lt ha (off_lt hr hj)

theorem iterMACfold_ok {b : Matrix α} {n : Nat} (hb : b.Wf) (hbn : b.n = n)
    {av : List α} {g : Nat → α} (hav : ∀ j, j < n → av[j]? = some (g j))
    {i : Nat} (hi : i < n) :
    ∀ (ks : List Nat), (∀ k ∈ ks, k < n) → ∀ (v : α),
    foldME (iterMAC b n av i) v ks =
      .ok (ks.foldl (fun acc k => acc + g k * b.entry k i) v)
  | [], hks, v => rfl
  | k :: ks, hks, v => by
    have hk : k < n := hks k (by simp)
    have hav2 := hav k hk
    have hoff : b.n * k + i < b.n * b.n := by
      rw [hbn]
      exact off_lt hk hi
    have hbidx : b.values[k * n + i]? = some (b.entry k i) := by
      have hco : k * n + i = b.n * k + i := by rw [hbn]; ring
      rw [hco]
      exact Matrix.entry_eq_of_lt hb hoff
    have hstep : iterMAC b n av i v k = .ok (v + g k * b.entry k i) := by
      simp [iterMAC, sliceIndex_ok hav2, sliceIndex_ok hbidx]
    rw [foldME_ok_cons (f := iterMAC b n av i) (x := k) hstep]
    rw [iterMACfold_ok hb hbn hav hi ks (fun k2 hk2 => hks k2 (by simp [hk2])) _,
      List.foldl_cons]

theorem iterRow_fold_ok {b : Matrix α} {n nn : Nat} (hb : b.Wf) (hbn : b.n = n)
    (hnB : n = nn * BLOCK) (av : List α) (g : Nat → α)
    (hav : ∀ j, j < n → av[j]? = some (g j)) :
    ∀ (jjs : List Nat), (∀ jj ∈ jjs, jj < nn) → ∀ (cv : List α) (h0 : Nat → α),
    cv.length = n → (∀ i, i < n → cv[i]? = some (h0 i)) →
    ∃ cv2, foldME (fun cv jj =>
        mapME (fun q => foldME (iterMAC b n av q.1) q.2 (List.range' (jj * BLOCK) BLOCK))
          cv.enum) cv jjs = .ok cv2 ∧
      cv2.length = n ∧
      (∀ i, i < n → cv2[i]? = some ((blockRanges BLOCK jjs).foldl
        (fun acc k => acc + g k * b.entry k i) (h0 i)))
  | [], hjjs, cv, h0, hcvlen, hcvget => ⟨cv, rfl, hcvlen, by
      intro i hi
      rw [hcvget i hi]
      rfl⟩
  | jj :: jjs, hjjs, cv, h0, hcvlen, hcvget => by
    have hjj : jj < nn := hjjs jj (by simp)
    have hkb : ∀ k ∈ List.range' (jj * BLOCK) BLOCK, k < n := by
      intro k hk
      rw [hnB]
      exact block_elt_lt hjj hk
    have hstep : mapME (fun q =>
        foldME (iterMAC b n av q.1) q.2 (List.range' (jj * BLOCK) BLOCK)) cv.enum
        = .ok (cv.enum.map (fun q => (List.range' (jj * BLOCK) BLOCK).foldl
            (fun acc k => acc + g k * b.entry k q.1) q.2)) := by
      apply mapME_ok
      intro q hq
      have hq1 : cv[q.1]? = some q.2 := List.mem_enum_iff_getElem?.1 hq
      have hqlt : q.1 < n := by
        rw [← hcvlen]
        rcases List.getElem?_eq_some_iff.1 hq1 with ⟨hh, _⟩
        exact hh
      exact iterMACfold_ok hb hbn hav hqlt _ hkb q.2
    have hc1len : (cv.enum.map (fun q => (List.range' (jj * BLOCK) BLOCK).foldl
        (fun acc k => acc + g k * b.entry k q.1) q.2)).length = n := by
      rw [List.length_map, List.enum_length]
      exact hcvlen
    have hc1get : ∀ i, i < n →
        (cv.enum.map (fun q => (List.range' (jj * BLOCK) BLOCK).foldl
          (fun acc k => acc + g k * b.entry k q.1) q.2))[i]? =
        some ((List.range' (jj * BLOCK) BLOCK).foldl
          (fun acc k => acc + g k * b.entry k i) (h0 i)) := by
      intro i hi
      rw [List.getElem?_map, List.getElem?_enum]
      rw [show cv[i]? = some (h0 i) from hcvget i hi]
      rfl
    obtain ⟨cv2, hrun, hlen2, hget2⟩ :=
      iterRow_fold_ok hb hbn hnB av g hav jjs (fun jj2 hjj2 => hjjs jj2 (by simp [hjj2]))
        (cv.enum.map (fun q => (List.range' (jj * BLOCK) BLOCK).foldl
          (fun acc k => acc + g k * b.entry k q.1) q.2))
        (fun i => (List.range' (jj * BLOCK) BLOCK).foldl
          (fun acc k => acc + g k * b.entry k i) (h0 i))
        hc1len hc1get
    refine ⟨cv2, ?_, hlen2, ?_⟩
    · rw [foldME_ok_cons (f := fun cv jj =>
        mapME (fun q => foldME (iterMAC b n av q.1) q.2 (List.range' (jj * BLOCK) BLOCK))
          cv.enum) (x := jj) hstep]
      exact hrun
    · intro i hi
      rw [hget2 i hi, show blockRanges BLOCK (jj :: jjs)
          = List.range' (jj * BLOCK) BLOCK ++ blockRanges BLOCK jjs from rfl,
        List.foldl_append]

theorem mapME_map_ok {β γ δ : Type} {f : γ → Except MatErr δ} {ρ : β → γ} {g : β → δ} :
    ∀ {l : List β}, (∀ x ∈ l, f (ρ x) = .ok (g x)) → mapME f (l.map ρ) = .ok (l.map g)
  | [], _ => rfl
  | x :: xs, h => by
    have hx : f (ρ x) = .ok (g x) := h x (by simp)
    have hxs : mapME f (xs.map ρ) = .ok (xs.map g) :=
      mapME_map_ok (fun y hy => h y (by simp [hy]))
    simp [mapME, hx, hxs]

theorem range_add_append (p q : Nat) :
    List.range (p + q) = List.range p ++ List.range' p q := by
  rw [Nat.add_comm p q, List.range_eq_range', List.range_eq_range']
  have h := List.range'_append_1 0 p q
  rw [show (0 + p : Nat) = p by omega] at h
  rw [← h]

theorem flatten_grid {δ : Type} (f : Nat → Nat → δ) {k : Nat} (hk : 0 < k) :
    ∀ (m : Nat),
    ((List.range m).map (fun r => (List.range k).map (fun i => f r i))).flatten
      = (List.range (m * k)).map (fun off => f (off / k) (off % k))
  | 0 => by simp
  | m + 1 => by
    rw [List.range_succ, List.map_append, List.flatten_append, flatten_grid f hk m]
    simp only [List.map_cons, List.map_nil, List.flatten_cons, List.flatten_nil,
      List.append_nil]
    have hsplit : (m + 1) * k = m * k + k := by ring
    rw [hsplit, range_add_append, List.map_append]
    congr 1
    rw [List.range'_eq_map_range, List.map_map]
    apply List.map_congr_left
    intro i hi
    have hik : i < k := List.mem_range.1 hi
    show f m i = f ((m * k + i) / k) ((m * k + i) % k)
    have hd : (m * k + i) / k = m := by
      rw [show m * k + i = k * m + i by ring, Nat.mul_add_div hk, Nat.div_eq_of_lt hik]
      omega
    have hm : (m * k + i) % k = i := by
      rw [show m * k + i = k * m + i by ring, Nat.mul_add_mod, Nat.mod_eq_of_lt hik]
    rw [hd, hm]

/-- The reordered sequential multiplier computes the canonical specification
whenever the operands are well-formed, of equal positive dimension, and the
dimension is a multiple of the tile size. -/
theorem multiply_iter_ok {a b : Matrix α} (ha : a.Wf) (hb : b.Wf) (hn : a.n = b.n)
    (hal : a.n % BLOCK = 0) (hpos : 0 < a.n) : multiply_iter a b = .ok (mulSpec a b) := by
  unfold multiply_iter
  rw [if_pos hn]
  have hnbv : a.number_of_blocks = .ok (a.n / BLOCK) := by
    simp [Matrix.number_of_blocks, hal]
  have hne : a.n ≠ 0 := by omega
  have hnB : a.n = (a.n / BLOCK) * BLOCK := by
    have := Nat.div_mul_cancel (Nat.dvd_of_mod_eq_zero hal)
    omega
  simp only [hnbv, chunksE_ok hne]
  rw [chunkList_zero_values hpos, chunkList_rows ha hpos]
  rw [show List.replicate a.n (List.replicate a.n (0 : α))
      = (List.range a.n).map (fun _ => List.replicate a.n (0 : α)) by
    rw [List.map_const', List.length_range]]
  rw [List.zip_map']
  have hmain : mapME (fun p => iterRow b a.n (a.n / BLOCK) p.2 p.1)
      ((List.range a.n).map (fun r =>
        (List.replicate a.n (0 : α), (a.values.drop (r * a.n)).take a.n)))
      = .ok ((List.range a.n).map (fun r =>
        (List.range a.n).map (fun i => dotk a b r i (List.range a.n) 0))) := by
    apply mapME_map_ok
    intro r hr
    have hrlt : r < a.n := List.mem_range.1 hr
    obtain ⟨cv2, hrun, hlen2, hget2⟩ :=
      iterRow_fold_ok (n := a.n) hb hn.symm hnB
        ((a.values.drop (r * a.n)).take a.n) (fun j => a.entry r j)
        (fun j hj => avrow_get ha hrlt hj)
        (List.range (a.n / BLOCK)) (fun jj hjj => List.mem_range.1 hjj)
        (List.replicate a.n 0) (fun _ => 0) (by simp)
        (fun i hi => List.getElem?_replicate_of_lt hi)
    show iterRow b a.n (a.n / BLOCK) ((a.values.drop (r * a.n)).take a.n)
      (List.replicate a.n 0) = _
    rw [iterRow, hrun]
    congr 1
    apply List.ext_getElem?
    intro i
    by_cases hi : i < a.n
    · rw [hget2 i hi, List.getElem?_map, List.getElem?_range hi]
      rw [blockRanges_range, ← hnB]
      rfl
    · rw [List.getElem?_eq_none (by omega),
        List.getElem?_eq_none (by rw [List.length_map, List.length_range]; omega)]
  rw [hmain]
  show Except.ok _ = _
  rw [flatten_grid (fun r i => dotk a b r i (List.range a.n) 0) hpos a.n]
  rfl

/-- The parallel multiplier is modelled by the same function as the
reordered sequential one. -/
theorem rayon_eq_iter (a b : Matrix α) : multiply_rayon a b = multiply_iter a b := rfl

end IterLemmas

section ErrorLemmas

variable {α : Type} [Zero α] [Add α] [Mul α]

theorem multiply_mismatch {a b : Matrix α} (hne : a.n ≠ b.n) :
    multiply a b = .error .DimensionMismatch := by
  simp [multiply, hne]

theorem multiply_blocked_mismatch {a b : Matrix α} (hne : a.n ≠ b.n) :
    multiply_blocked a b = .error .DimensionMismatch := by
  simp [multiply_blocked, hne]

theorem multiply_iter_mismatch {a b : Matrix α} (hne : a.n ≠ b.n) :
    multiply_iter a b = .error .DimensionMismatch := by
  simp [multiply_iter, hne]

theorem multiply_rayon_mismatch {a b : Matrix α} (hne : a.n ≠ b.n) :
    multiply_rayon a b = .error .DimensionMismatch := by
  simp [multiply_rayon, hne]

theorem number_of_blocks_err {m : Matrix α} (h : m.n % BLOCK ≠ 0) :
    m.number_of_blocks = .error .UnalignedSize := by
  simp [Matrix.number_of_blocks, h]

theorem multiply_blocked_unaligned {a b : Matrix α} (hn : a.n = b.n)
    (h : a.n % BLOCK ≠ 0) : multiply_blocked a b = .error .UnalignedSize := by
  unfold multiply_blocked
  rw [if_pos hn]
  simp only [number_of_blocks_err h]

theorem multiply_iter_unaligned {a b : Matrix α} (hn : a.n = b.n)
    (h : a.n % BLOCK ≠ 0) : multiply_iter a b = .error .UnalignedSize := by
  unfold multiply_iter
  rw [if_pos hn]
  simp only [number_of_blocks_err h]

theorem multiply_rayon_unaligned {a b : Matrix α} (hn : a.n = b.n)
    (h : a.n % BLOCK ≠ 0) : multiply_rayon a b = .error .UnalignedSize := by
  unfold multiply_rayon
  rw [if_pos hn]
  simp only [number_of_blocks_err h]

end ErrorLemmas

section IdLemmas

variable {α : Type} [Zero α] [One α]

theorem idfold_ok :
    ∀ (l : List Nat) (m : Matrix α), m.Wf → (∀ i ∈ l, i < m.n) →
    ∃ I, foldME (fun m i => m.set (i, i) 1) m l = .ok I ∧ I.n = m.n ∧ I.Wf ∧
      (∀ i j, i < m.n → j < m.n →
        I.entry i j = if i = j ∧ i ∈ l then 1 else m.entry i j)
  | [], m, hw, hb => ⟨m, rfl, rfl, hw, by
      intro i j hi hj
      simp⟩
  | i0 :: l, m, hw, hb => by
    have hi0 : i0 < m.n := hb i0 (by simp)
    have hset : m.set (i0, i0) 1 = .ok (setCell m i0 i0 1) :=
      Matrix.set_ok hw (off_lt hi0 hi0) 1
    obtain ⟨I, hrun, hIn, hIw, hchar⟩ :=
      idfold_ok l (setCell m i0 i0 1) (setCell_wf hw _ _ _)
        (by
          intro i hi
          rw [setCell_n]
          exact hb i (by simp [hi]))
    refine ⟨I, ?_, by rw [hIn, setCell_n], hIw, ?_⟩
    · rw [foldME_ok_cons (f := fun (m : Matrix α) (i : Nat) => m.set (i, i) 1) (x := i0) hset]
      exact hrun
    · intro i j hi hj
      have hchar2 := hchar i j (by rw [setCell_n]; exact hi) (by rw [setCell_n]; exact hj)
      by_cases hij : i = j
      · subst hij
        by_cases hmem : i ∈ l
        · rw [hchar2, if_pos ⟨rfl, hmem⟩, if_pos ⟨rfl, by simp [hmem]⟩]
        · by_cases hi0eq : i = i0
          · subst hi0eq
            rw [hchar2, if_neg (by simp [hmem]), entry_setCell_self hw hi0 hi0,
              if_pos ⟨rfl, by simp⟩]
          · rw [hchar2, if_neg (by simp [hmem]),
              entry_setCell_other hw hi0 hi0 hi hj (by simp [hi0eq]),
              if_neg (by simp [hi0eq, hmem])]
      · rw [hchar2, if_neg (by simp [hij]),
          entry_setCell_other hw hi0 hi0 hi hj (by
            intro hcontra
            exact hij (hcontra.1.trans hcontra.2.symm)),
          if_neg (by simp [hij])]

/-- Matrix::id succeeds and yields the matrix with ones on the diagonal and
zeros elsewhere. -/
theorem id_ok (n : Nat) :
    ∃ I : Matrix α, Matrix.id n = .ok I ∧ I.n = n ∧ I.Wf ∧
      (∀ i j, i < n → j < n → I.entry i j = if i = j then 1 else 0) := by
  obtain ⟨I, hrun, hIn, hIw, hchar⟩ :=
    idfold_ok (List.range n) (Matrix.zero n : Matrix α) (zero_wf n)
      (by
        intro i hi
        rw [zero_n]
        exact List.mem_range.1 hi)
  refine ⟨I, hrun, by rw [hIn, zero_n], hIw, ?_⟩
  intro i j hi hj
  have h2 := hchar i j (by rw [zero_n]; exact hi) (by rw [zero_n]; exact hj)
  rw [h2, zero_entry]
  by_cases hij : i = j
  · rw [if_pos ⟨hij, List.mem_range.2 hi⟩, if_pos hij]
  · rw [if_neg (by simp [hij]), if_neg hij]

end IdLemmas

section IdentityLaw

variable {α : Type} [NonAssocSemiring α]

theorem dotk_delta_skip {I R : Matrix α} {n i j : Nat} (hi : i < n) (hj : j < n)
    (hI : ∀ i2 k, i2 < n → k < n → I.entry i2 k = if i2 = k then 1 else 0) :
    ∀ (l : List Nat) (acc : α), (∀ k ∈ l, k < n) → i ∉ l → dotk I R i j l acc = acc
  | [], acc, _, _ => rfl
  | k :: l, acc, hb, hmem => by
    have hk : k < n := hb k (by simp)
    have hik : i ≠ k := by
      intro hcontra
      exact hmem (by simp [hcontra])
    rw [dotk_cons, hI i k hi hk, if_neg hik, zero_mul, add_zero]
    exact dotk_delta_skip hi hj hI l acc (fun k2 hk2 => hb k2 (by simp [hk2]))
      (fun hcontra => hmem (by simp [hcontra]))

theorem dotk_delta_hit {I R : Matrix α} {n i j : Nat} (hi : i < n) (hj : j < n)
    (hI : ∀ i2 k, i2 < n → k < n → I.entry i2 k = if i2 = k then 1 else 0) :
    ∀ (l : List Nat) (acc : α), (∀ k ∈ l, k < n) → l.Nodup → i ∈ l →
      dotk I R i j l acc = acc + R.entry i j
  | [], acc, _, _, hmem => absurd hmem (by simp)
  | k :: l, acc, hb, hnd, hmem => by
    have hk : k < n := hb k (by simp)
    by_cases hik : i = k
    · subst hik
      rw [dotk_cons, hI i i hi hi, if_pos rfl, one_mul]
      exact dotk_delta_skip hi hj hI l _ (fun k2 hk2 => hb k2 (by simp [hk2]))
        (List.nodup_cons.1 hnd).1
    · have hmem2 : i ∈ l := by
        rcases List.mem_cons.1 hmem with h1 | h1
        · exact absurd h1 hik
        · exact h1
      rw [dotk_cons, hI i k hi hk, if_neg hik, zero_mul, add_zero]
      exact dotk_delta_hit hi hj hI l acc (fun k2 hk2 => hb k2 (by simp [hk2]))
        (List.nodup_cons.1 hnd).2 hmem2

/-- Multiplying the canonical identity on the left reproduces the right
operand cell for cell. -/
theorem mulSpec_id_left {I R : Matrix α} (hw : R.Wf) (hIn : I.n = R.n) (hIw : I.Wf)
    (hI : ∀ i k, i < R.n → k < R.n → I.entry i k = if i = k then 1 else 0) :
    mulSpec I R = R := by
  apply Matrix.ext_entry (by rw [mulSpec_n, hIn]) (mulSpec_wf I R) hw
  intro i j hi hj
  rw [mulSpec_n, hIn] at hi hj
  rw [mulSpec_entry I R (by rw [hIn]; exact hi) (by rw [hIn]; exact hj)]
  rw [hIn]
  rw [dotk_delta_hit hi hj hI (List.range R.n) 0
    (fun k hk => List.mem_range.1 hk) (List.nodup_range _) (List.mem_range.2 hi)]
  rw [zero_add]

end IdentityLaw

section Claims

/-- Claim C1 (corrected): as stated the claim quantifies over every n that is
a multiple of the tile size, which includes n = 0; there the naive multiplier
returns the empty matrix while multiply_iter panics on chunk size zero, so
the four strategies do not agree.  This theorem exhibits that divergence at
the concrete input n = 0 over the integers. -/
theorem C1_zero_counterexample :
    (0 : Nat) % BLOCK = 0 ∧
    multiply (Matrix.zero 0 : Matrix Int) (Matrix.zero 0) = .ok (Matrix.zero 0) ∧
    multiply_iter (Matrix.zero 0 : Matrix Int) (Matrix.zero 0) = .error .ChunkSizeZero ∧
    multiply_iter (Matrix.zero 0 : Matrix Int) (Matrix.zero 0) ≠
      multiply (Matrix.zero 0 : Matrix Int) (Matrix.zero 0) := by
  refine ⟨by decide, by decide, by decide, by decide⟩

/-- Claim C1 (amended): for well-formed matrices of equal dimension n with n
a positive multiple of the tile size, the blocked, reordered and parallel
strategies return exactly the naive result, for any element type with any
addition and multiplication (in particular IEEE-754 f64), because every
strategy performs the same multiply-accumulate sequence per cell. -/
theorem C1_strategies_agree {α : Type} [Zero α] [Add α] [Mul α] (a b : Matrix α)
    (ha : a.Wf) (hb : b.Wf) (hn : a.n = b.n) (hal : a.n % BLOCK = 0)
    (hpos : 0 < a.n) :
    multiply_blocked a b = multiply a b ∧
    multiply_iter a b = multiply a b ∧
    multiply_rayon a b = multiply a b := by
  refine ⟨?_, ?_, ?_⟩
  · rw [multiply_blocked_ok ha hb hn hal, multiply_ok ha hb hn]
  · rw [multiply_iter_ok ha hb hn hal hpos, multiply_ok ha hb hn]
  · rw [rayon_eq_iter, multiply_iter_ok ha hb hn hal hpos, multiply_ok ha hb hn]

/-- Witness for C1: the amended equivalence applied to the 64-dimensional
zero matrices over the integers. -/
theorem C1_witness :
    multiply_blocked (Matrix.zero 64 : Matrix Int) (Matrix.zero 64) =
      multiply (Matrix.zero 64) (Matrix.zero 64) ∧
    multiply_iter (Matrix.zero 64 : Matrix Int) (Matrix.zero 64) =
      multiply (Matrix.zero 64) (Matrix.zero 64) ∧
    multiply_rayon (Matrix.zero 64 : Matrix Int) (Matrix.zero 64) =
      multiply (Matrix.zero 64) (Matrix.zero 64) :=
  C1_strategies_agree (Matrix.zero 64) (Matrix.zero 64)
    (zero_wf 64) (zero_wf 64) rfl (by decide) (by decide)

/-- Claim C2 (confirmed): the blocked six-loop nest visits the summation
range of every fixed output cell in the naive ascending order 0,1,...,n-1,
so for well-formed equal-dimension operands whose dimension is a multiple
of the tile size, multiply_blocked returns exactly the same value as
multiply: both equal the canonical specification whose every cell is the
ascending-k left fold. -/
theorem C2_blocked_bit_identical {α : Type} [Zero α] [Add α] [Mul α] (a b : Matrix α)
    (ha : a.Wf) (hb : b.Wf) (hn : a.n = b.n) (hal : a.n % BLOCK = 0) :
    multiply_blocked a b = multiply a b ∧
    multiply_blocked a b = .ok (mulSpec a b) ∧
    (∀ i j, i < a.n → j < a.n → (mulSpec a b).entry i j =
      (List.range a.n).foldl (fun acc k => acc + a.entry i k * b.entry k j) 0) := by
  refine ⟨?_, multiply_blocked_ok ha hb hn hal, ?_⟩
  · rw [multiply_blocked_ok ha hb hn hal, multiply_ok ha hb hn]
  · intro i j hi hj
    rw [mulSpec_entry a b hi hj]
    rfl

/-- Witness for C2: the blocked-naive agreement applied at dimension zero
(the empty matrices over the integers), where both loops run zero times. -/
theorem C2_witness :
    multiply_blocked (Matrix.zero 0 : Matrix Int) (Matrix.zero 0) =
      multiply (Matrix.zero 0) (Matrix.zero 0) ∧
    multiply_blocked (Matrix.zero 0 : Matrix Int) (Matrix.zero 0) =
      .ok (mulSpec (Matrix.zero 0) (Matrix.zero 0)) ∧
    (∀ i j, i < (Matrix.zero 0 : Matrix Int).n → j < (Matrix.zero 0 : Matrix Int).n →
      (mulSpec (Matrix.zero 0 : Matrix Int) (Matrix.zero 0)).entry i j =
      (List.range (Matrix.zero 0 : Matrix Int).n).foldl
        (fun acc k => acc + (Matrix.zero 0 : Matrix Int).entry i k *
          (Matrix.zero 0 : Matrix Int).entry k j) 0) :=
  C2_blocked_bit_identical (Matrix.zero 0) (Matrix.zero 0)
    (by decide) (by decide) rfl (by decide)

/-- Claim C3 (corrected): n = 0 is a multiple of the tile size and the
0-dimensional identity and zero matrices exist, but multiply_rayon panics on
chunk size zero there instead of returning R, so the identity law as stated
fails at n = 0. -/
theorem C3_zero_counterexample :
    (0 : Nat) % BLOCK = 0 ∧
    (Matrix.id 0 : Except MatErr (Matrix Int)) = .ok (Matrix.zero 0) ∧
    multiply_rayon (Matrix.zero 0 : Matrix Int) (Matrix.zero 0) = .error .ChunkSizeZero ∧
    multiply_rayon (Matrix.zero 0 : Matrix Int) (Matrix.zero 0) ≠ .ok (Matrix.zero 0) := by
  refine ⟨by decide, by decide, by decide, by decide⟩

/-- Claim C3 (amended): for any well-formed matrix R whose dimension is a
positive multiple of the tile size, multiplying Matrix::id of that dimension
by R yields R under all four strategies, over any non-associative semiring
of elements (zero annihilates, zero is the additive identity and one the
multiplicative identity). -/
theorem C3_identity_law {α : Type} [NonAssocSemiring α] (R : Matrix α)
    (hw : R.Wf) (hal : R.n % BLOCK = 0) (hpos : 0 < R.n) :
    (Matrix.id R.n).bind (fun I => multiply I R) = .ok R ∧
    (Matrix.id R.n).bind (fun I => multiply_blocked I R) = .ok R ∧
    (Matrix.id R.n).bind (fun I => multiply_iter I R) = .ok R ∧
    (Matrix.id R.n).bind (fun I => multiply_rayon I R) = .ok R := by
  obtain ⟨I, hid, hIn, hIw, hchar⟩ := id_ok (α := α) R.n
  have hspec : mulSpec I R = R := mulSpec_id_left hw hIn hIw hchar
  have halI : I.n % BLOCK = 0 := by rw [hIn]; exact hal
  have hposI : 0 < I.n := by rw [hIn]; exact hpos
  rw [hid]
  refine ⟨?_, ?_, ?_, ?_⟩
  · show multiply I R = .ok R
    rw [multiply_ok hIw hw hIn, hspec]
  · show multiply_blocked I R = .ok R
    rw [multiply_blocked_ok hIw hw hIn halI, hspec]
  · show multiply_iter I R = .ok R
    rw [multiply_iter_ok hIw hw hIn halI hposI, hspec]
  · show multiply_rayon I R = .ok R
    rw [rayon_eq_iter, multiply_iter_ok hIw hw hIn halI hposI, hspec]

/-- Witness for C3: the amended identity law applied to the 64-dimensional
zero matrix over the integers. -/
theorem C3_witness :
    (Matrix.id (Matrix.zero 64 : Matrix Int).n : Except MatErr (Matrix Int)).bind
      (fun I => multiply I (Matrix.zero 64)) = .ok (Matrix.zero 64) ∧
    (Matrix.id (Matrix.zero 64 : Matrix Int).n : Except MatErr (Matrix Int)).bind
      (fun I => multiply_blocked I (Matrix.zero 64)) = .ok (Matrix.zero 64) ∧
    (Matrix.id (Matrix.zero 64 : Matrix Int).n : Except MatErr (Matrix Int)).bind
      (fun I => multiply_iter I (Matrix.zero 64)) = .ok (Matrix.zero 64) ∧
    (Matrix.id (Matrix.zero 64 : Matrix Int).n : Except MatErr (Matrix Int)).bind
      (fun I => multiply_rayon I (Matrix.zero 64)) = .ok (Matrix.zero 64) :=
  C3_identity_law (Matrix.zero 64) (zero_wf 64) (by decide) (by decide)

/-- Claim C4 (confirmed): for well-formed equal-dimension operands of any
dimension, every cell (i, j) of the naive product is the left fold, over the
summation indices 0,1,...,n-1 in ascending order, of acc plus
a[i][k] times b[k][j], starting from the additive-identity accumulator. -/
theorem C4_naive_cell {α : Type} [Zero α] [Add α] [Mul α] (a b : Matrix α)
    (ha : a.Wf) (hb : b.Wf) (hn : a.n = b.n) (i j : Nat)
    (hi : i < a.n) (hj : j < a.n) :
    ∃ c, multiply a b = .ok c ∧
      c.entry i j = (List.range a.n).foldl
        (fun acc k => acc + a.entry i k * b.entry k j) 0 := by
  refine ⟨mulSpec a b, multiply_ok ha hb hn, ?_⟩
  rw [mulSpec_entry a b hi hj]
  rfl

/-- Witness for C4: the naive cell formula at the one-dimensional input. -/
theorem C4_witness :
    ∃ c, multiply (⟨1, [2]⟩ : Matrix Int) ⟨1, [3]⟩ = .ok c ∧
      c.entry 0 0 = (List.range (⟨1, [2]⟩ : Matrix Int).n).foldl
        (fun acc k => acc + (⟨1, [2]⟩ : Matrix Int).entry 0 k *
          (⟨1, [3]⟩ : Matrix Int).entry k 0) 0 :=
  C4_naive_cell ⟨1, [2]⟩ ⟨1, [3]⟩ (by decide) (by decide) rfl 0 0
    (by decide) (by decide)

/-- Claim C5 (confirmed): for well-formed equal-dimension operands, the
naive multiplier always succeeds with the canonical product, while whenever
the dimension is not a multiple of the tile size, number_of_blocks and with
it the blocked, reordered and parallel strategies fail with UnalignedSize. -/
theorem C5_alignment {α : Type} [Zero α] [Add α] [Mul α] (a b : Matrix α)
    (ha : a.Wf) (hb : b.Wf) (hn : a.n = b.n) :
    multiply a b = .ok (mulSpec a b) ∧
    (a.n % BLOCK ≠ 0 →
      a.number_of_blocks = .error .UnalignedSize ∧
      multiply_blocked a b = .error .UnalignedSize ∧
      multiply_iter a b = .error .UnalignedSize ∧
      multiply_rayon a b = .error .UnalignedSize) := by
  refine ⟨multiply_ok ha hb hn, ?_⟩
  intro hal
  exact ⟨number_of_blocks_err hal, multiply_blocked_unaligned hn hal,
    multiply_iter_unaligned hn hal, multiply_rayon_unaligned hn hal⟩

/-- Witness for C5: at dimension 1 (not a multiple of 64) over the integers,
naive succeeds and the three optimized strategies fail with UnalignedSize. -/
theorem C5_witness :
    multiply (Matrix.zero 1 : Matrix Int) (Matrix.zero 1) =
      .ok (mulSpec (Matrix.zero 1) (Matrix.zero 1)) ∧
    ((Matrix.zero 1 : Matrix Int).number_of_blocks = .error .UnalignedSize ∧
      multiply_blocked (Matrix.zero 1 : Matrix Int) (Matrix.zero 1) =
        .error .UnalignedSize ∧
      multiply_iter (Matrix.zero 1 : Matrix Int) (Matrix.zero 1) =
        .error .UnalignedSize ∧
      multiply_rayon (Matrix.zero 1 : Matrix Int) (Matrix.zero 1) =
        .error .UnalignedSize) :=
  ⟨(C5_alignment (Matrix.zero 1) (Matrix.zero 1) (by decide) (by decide) rfl).1,
    (C5_alignment (Matrix.zero 1) (Matrix.zero 1) (by decide) (by decide) rfl).2
      (by decide)⟩

/-- Claim C6 (confirmed): Matrix::new fails with DimensionMismatch exactly
when the value count differs from n squared and otherwise returns the matrix
with that dimension and those values; and every one of the four multipliers
fails with DimensionMismatch on operands of unequal dimension, regardless of
alignment, because the dimension assert precedes the alignment check. -/
theorem C6_dimension_mismatch {α : Type} [Zero α] [Add α] [Mul α]
    (n : Nat) (vs : List α) (a b : Matrix α) :
    (vs.length ≠ n * n → Matrix.new n vs = .error .DimensionMismatch) ∧
    (vs.length = n * n → Matrix.new n vs = .ok ⟨n, vs⟩) ∧
    (a.n ≠ b.n →
      multiply a b = .error .DimensionMismatch ∧
      multiply_blocked a b = .error .DimensionMismatch ∧
      multiply_iter a b = .error .DimensionMismatch ∧
      multiply_rayon a b = .error .DimensionMismatch) := by
  refine ⟨?_, ?_, ?_⟩
  · intro h
    have h2 : ¬ n * n = vs.length := by
      intro h3
      exact h h3.symm
    simp [Matrix.new, h2]
  · intro h
    simp [Matrix.new, h]
  · intro h
    exact ⟨multiply_mismatch h, multiply_blocked_mismatch h,
      multiply_iter_mismatch h, multiply_rayon_mismatch h⟩

/-- Witness for C6: a three-element buffer is rejected for n = 2, a
four-element buffer is accepted, and a 1-by-1 against 2-by-2 pair (sizes
both unaligned) fails with DimensionMismatch in all four multipliers. -/
theorem C6_witness :
    Matrix.new 2 ([1, 2, 3] : List Int) = .error .DimensionMismatch ∧
    Matrix.new 2 ([1, 2, 3, 4] : List Int) = .ok ⟨2, [1, 2, 3, 4]⟩ ∧
    (multiply (⟨1, [0]⟩ : Matrix Int) ⟨2, [0, 0, 0, 0]⟩ = .error .DimensionMismatch ∧
      multiply_blocked (⟨1, [0]⟩ : Matrix Int) ⟨2, [0, 0, 0, 0]⟩ =
        .error .DimensionMismatch ∧
      multiply_iter (⟨1, [0]⟩ : Matrix Int) ⟨2, [0, 0, 0, 0]⟩ =
        .error .DimensionMismatch ∧
      multiply_rayon (⟨1, [0]⟩ : Matrix Int) ⟨2, [0, 0, 0, 0]⟩ =
        .error .DimensionMismatch) :=
  ⟨(C6_dimension_mismatch 2 ([1, 2, 3] : List Int) ⟨1, [0]⟩ ⟨2, [0, 0, 0, 0]⟩).1
      (by decide),
    (C6_dimension_mismatch 2 ([1, 2, 3, 4] : List Int) ⟨1, [0]⟩ ⟨2, [0, 0, 0, 0]⟩).2.1
      (by decide),
    (C6_dimension_mismatch 2 ([1, 2, 3, 4] : List Int) ⟨1, [0]⟩ ⟨2, [0, 0, 0, 0]⟩).2.2
      (by decide)⟩

/-- Claim C7 (corrected): the Index and IndexMut implementations check only
the flat offset i*n+j against the buffer length, so an access with j at
least n need not fail: on the 2-by-2 matrix [1,2,3,4] the read at (0, 3)
returns the element at flat offset 3 and the write at (0, 3) overwrites it,
though the claim requires an IndexOutOfRange failure since 3 is at least 2. -/
theorem C7_counterexample :
    (2 : Nat) ≤ 3 ∧
    Matrix.index (⟨2, [1, 2, 3, 4]⟩ : Matrix Int) (0, 3) = .ok 4 ∧
    Matrix.index (⟨2, [1, 2, 3, 4]⟩ : Matrix Int) (0, 3) ≠ .error .IndexOutOfRange ∧
    Matrix.set (⟨2, [1, 2, 3, 4]⟩ : Matrix Int) (0, 3) 9 = .ok ⟨2, [1, 2, 3, 9]⟩ := by
  refine ⟨by decide, by decide, by decide, by decide⟩

/-- Claim C7 (amended): on a well-formed matrix, element access at (i, j)
reads or writes the backing buffer at flat offset n*i+j whenever that offset
is inside the buffer, and both the read and the write fail with
IndexOutOfRange exactly when the offset reaches n*n; in particular every
access with i at least n fails, but an access with j at least n succeeds
whenever its flat offset stays below n*n. -/
theorem C7_index_contract {α : Type} [Zero α] (m : Matrix α) (hw : m.Wf)
    (i j : Nat) (v : α) :
    (m.n * i + j < m.n * m.n →
      m.index (i, j) = .ok (m.entry i j) ∧
      m.set (i, j) v = .ok ⟨m.n, m.values.set (m.n * i + j) v⟩) ∧
    (m.n * m.n ≤ m.n * i + j →
      m.index (i, j) = .error .IndexOutOfRange ∧
      m.set (i, j) v = .error .IndexOutOfRange) ∧
    (m.n ≤ i → m.index (i, j) = .error .IndexOutOfRange) := by
  refine ⟨?_, ?_, ?_⟩
  · intro h
    exact ⟨Matrix.index_ok hw h, Matrix.set_ok hw h v⟩
  · intro h
    exact ⟨Matrix.index_err hw h, Matrix.set_err hw h v⟩
  · intro h
    have h2 : m.n * m.n ≤ m.n * i + j := by
      have h3 : m.n * m.n ≤ m.n * i := Nat.mul_le_mul_left m.n h
      omega
    exact Matrix.index_err hw h2

/-- Witness for C7: the amended access contract applied at (0, 1) in range
and at row index 5 out of range, on the 2-by-2 matrix of integers. -/
theorem C7_witness :
    (Matrix.index (⟨2, [1, 2, 3, 4]⟩ : Matrix Int) (0, 1) =
        .ok ((⟨2, [1, 2, 3, 4]⟩ : Matrix Int).entry 0 1) ∧
      Matrix.set (⟨2, [1, 2, 3, 4]⟩ : Matrix Int) (0, 1) 9 =
        .ok ⟨2, ([1, 2, 3, 4] : List Int).set 1 9⟩) ∧
    Matrix.index (⟨2, [1, 2, 3, 4]⟩ : Matrix Int) (5, 0) = .error .IndexOutOfRange :=
  ⟨(C7_index_contract (⟨2, [1, 2, 3, 4]⟩ : Matrix Int) (by decide) 0 1 9).1 (by decide),
    (C7_index_contract (⟨2, [1, 2, 3, 4]⟩ : Matrix Int) (by decide) 5 0 9).2.2
      (by decide)⟩

/-- Claim C8 (confirmed): Matrix::zero fills every cell with the additive
identity and Matrix::id puts the multiplicative identity exactly on the
diagonal; concretely, the dimension-2 instances have backing buffers
[0,0,0,0] and [1,0,0,1]. -/
theorem C8_generators {α : Type} [Zero α] [One α] (n i j : Nat)
    (hi : i < n) (hj : j < n) :
    (Matrix.zero n : Matrix α).entry i j = 0 ∧
    (∃ I : Matrix α, Matrix.id n = .ok I ∧
      I.entry i j = if i = j then 1 else 0) ∧
    (Matrix.zero 2 : Matrix α).values = [0, 0, 0, 0] ∧
    (Matrix.id 2 : Except MatErr (Matrix α)) = .ok ⟨2, [1, 0, 0, 1]⟩ := by
  obtain ⟨I, hid, hIn, hIw, hchar⟩ := id_ok (α := α) n
  refine ⟨zero_entry n i j, ⟨I, hid, hchar i j hi hj⟩, ?_, ?_⟩
  · rfl
  · rfl

/-- Witness for C8: the generator characterization at n = 2, cell (0, 1),
over the integers. -/
theorem C8_witness :
    (Matrix.zero 2 : Matrix Int).entry 0 1 = 0 ∧
    (∃ I : Matrix Int, Matrix.id 2 = .ok I ∧
      I.entry 0 1 = if (0 : Nat) = 1 then 1 else 0) ∧
    (Matrix.zero 2 : Matrix Int).values = [0, 0, 0, 0] ∧
    (Matrix.id 2 : Except MatErr (Matrix Int)) = .ok ⟨2, [1, 0, 0, 1]⟩ :=
  C8_generators 2 0 1 (by decide) (by decide)

/-- Claim C9 (corrected): dimension 0 is accepted by the constructors, by
number_of_blocks, and by the naive and blocked multipliers, which return the
empty matrix; but multiply_iter and multiply_rayon do not succeed at n = 0:
chunking the buffer into rows of size 0 panics. -/
theorem C9_counterexample :
    ¬(multiply_iter (Matrix.zero 0 : Matrix Int) (Matrix.zero 0) =
      .ok (Matrix.zero 0)) ∧
    ¬(multiply_rayon (Matrix.zero 0 : Matrix Int) (Matrix.zero 0) =
      .ok (Matrix.zero 0)) := by
  refine ⟨by decide, by decide⟩

/-- Claim C9 (amended): at dimension 0, new/zero/id succeed with the empty
matrix, number_of_blocks returns 0, and multiply and multiply_blocked return
the empty product, while multiply_iter and multiply_rayon fail on the zero
chunk size. -/
theorem C9_zero_dimension :
    Matrix.new 0 ([] : List Int) = .ok ⟨0, []⟩ ∧
    (Matrix.zero 0 : Matrix Int) = ⟨0, []⟩ ∧
    (Matrix.id 0 : Except MatErr (Matrix Int)) = .ok ⟨0, []⟩ ∧
    (Matrix.zero 0 : Matrix Int).number_of_blocks = .ok 0 ∧
    multiply (Matrix.zero 0 : Matrix Int) (Matrix.zero 0) = .ok (Matrix.zero 0) ∧
    multiply_blocked (Matrix.zero 0 : Matrix Int) (Matrix.zero 0) =
      .ok (Matrix.zero 0) ∧
    multiply_iter (Matrix.zero 0 : Matrix Int) (Matrix.zero 0) =
      .error .ChunkSizeZero ∧
    multiply_rayon (Matrix.zero 0 : Matrix Int) (Matrix.zero 0) =
      .error .ChunkSizeZero := by
  refine ⟨by decide, by decide, by decide, by decide, by decide, by decide,
    by decide, by decide⟩

end Claims

end MatMul
